import Mathlib

/-! LBinaryTree: a linked binary search tree of key/value pairs.

A shallow embedding of `src/src/LBinaryTree.cpp`.  The class owns its nodes
exclusively, so the pointer structure is embedded as an algebraic tree and the
object state as a record of the two fields `root` and `size`.  Member functions
that update `this->size` take the counter and hand it back.
-/

namespace LBT

/-- A value of type `BinaryTreeNode<Key, Value>*`: either the null pointer or a
node owning a key, a value and its two child pointers. -/
inductive BinaryTreeNode (K : Type) (V : Type) where
  | null : BinaryTreeNode K V
  | node (left : BinaryTreeNode K V) (key : K) (value : V)
      (right : BinaryTreeNode K V) : BinaryTreeNode K V
  deriving DecidableEq, Repr

/-- What a member function can raise.  `BinaryTreeKeyNotFoundException` is the
exception `find` throws, with its message; `nullDereference` stands for the
undefined behaviour of calling a member of a null node pointer. -/
inductive BinaryTreeException where
  | BinaryTreeKeyNotFoundException (msg : String) : BinaryTreeException
  | nullDereference : BinaryTreeException
  deriving DecidableEq, Repr

/-- Modelled from the spec: the declaration of the `size` field lives in
`BinaryTree.hpp`, which is not among the sources; the spec calls it the
"count of nodes currently present", an integer count, taken here as a natural
number.  The record is the state of an `LBinaryTree<Key, Value>` object: its
fields `root` and `size`. -/
structure LBinaryTree (K : Type) (V : Type) where
  root : BinaryTreeNode K V
  size : Nat
  deriving DecidableEq, Repr

namespace BinaryTreeNode

variable {K V : Type}

/-- Modelled from the spec: `BinaryTreeNode.hpp` is not among the sources; the
spec gives the node a predicate for "has a left child".  A null receiver is
reported as having none. -/
def hasLeft : BinaryTreeNode K V → Bool
  | null => false
  | node null _ _ _ => false
  | node (node _ _ _ _) _ _ _ => true

/-- Modelled from the spec: `BinaryTreeNode.hpp` is not among the sources; the
spec gives the node a predicate for "has a right child". -/
def hasRight : BinaryTreeNode K V → Bool
  | null => false
  | node _ _ _ null => false
  | node _ _ _ (node _ _ _ _) => true

/-- In-order sequence of the key/value pairs below a node pointer: left subtree,
the node, right subtree. -/
def inorder : BinaryTreeNode K V → List (K × V)
  | null => []
  | node l k v r => inorder l ++ (k, v) :: inorder r

/-- The keys below a node pointer, in in-order sequence. -/
def keys (n : BinaryTreeNode K V) : List K :=
  n.inorder.map Prod.fst

/-- Number of nodes reachable from a node pointer. -/
def count : BinaryTreeNode K V → Nat
  | null => 0
  | node l _ _ r => count l + 1 + count r

/-- The ordering invariant of the tree: at every node, each key of the left
subtree is `<=` the node's key and each key of the right subtree is `>` it. -/
def isBST [LinearOrder K] : BinaryTreeNode K V → Prop
  | null => True
  | node l k _ r =>
    (∀ x ∈ keys l, x ≤ k) ∧ (∀ x ∈ keys r, k < x) ∧ isBST l ∧ isBST r

/-- The ordering invariant can be checked by computation. -/
instance instDecidableIsBST [LinearOrder K] :
    (n : BinaryTreeNode K V) → Decidable (isBST n)
  | null => isTrue trivial
  | node l k _ r =>
    have := instDecidableIsBST l
    have := instDecidableIsBST r
    inferInstanceAs (Decidable
      ((∀ x ∈ keys l, x ≤ k) ∧ (∀ x ∈ keys r, k < x) ∧ isBST l ∧ isBST r))

end BinaryTreeNode

open BinaryTreeNode

namespace Subtree

variable {K V : Type}

/-- The message both failure paths of the recursive `find` build with
`out << "Error: ..." << itemKey << " from tree, size:  " << this->size`. -/
def notFoundMessage [ToString K] (itemKey : K) (size : Nat) : String :=
  "Error: <LBinaryTree>::find() failed to find key " ++ toString itemKey
    ++ " from tree, size:  " ++ toString size

/-- Embeds `LBinaryTree::insert(BinaryTreeNode*, Key, Value)`, lines 203-231,
the recursive insertion.  It returns the pointer the caller links back, together
with the updated `this->size`. -/
def insert [LinearOrder K] :
    BinaryTreeNode K V → K → V → Nat → BinaryTreeNode K V × Nat
  | null, itemKey, itemValue, size =>
    (node null itemKey itemValue null, size + 1)
  | node l k v r, itemKey, itemValue, size =>
    if itemKey ≤ k then
      let res := insert l itemKey itemValue size
      (node res.1 k v r, res.2)
    else
      let res := insert r itemKey itemValue size
      (node l k v res.1, res.2)

/-- Embeds `LBinaryTree::find(BinaryTreeNode*, Key)`, lines 254-289: the recursive
search, which returns the node found or throws.  `size` is `this->size`, read
only for the message. -/
def find [LinearOrder K] [ToString K] (size : Nat) :
    BinaryTreeNode K V → K → Except BinaryTreeException (BinaryTreeNode K V)
  | null, itemKey =>
    .error (.BinaryTreeKeyNotFoundException (notFoundMessage itemKey size))
  | node l k v r, itemKey =>
    if k = itemKey then
      .ok (node l k v r)
    else if itemKey < k ∧ (node l k v r).hasLeft = true then
      find size l itemKey
    else if (node l k v r).hasRight = true then
      find size r itemKey
    else
      .error (.BinaryTreeKeyNotFoundException (notFoundMessage itemKey size))

/-- Embeds `LBinaryTree::str(BinaryTreeNode*)`, lines 141-160: the in-order rendering
of the values, each followed by one blank.  `toString` stands for the stream
insertion operator of the value type. -/
def str [ToString V] : BinaryTreeNode K V → String
  | null => ""
  | node l _ v r => str l ++ toString v ++ " " ++ str r

/-- Embeds `LBinaryTree::clear(BinaryTreeNode*)`, lines 174-190: post-order release of
every node.  Freed memory has no counterpart in the embedding, so the function
only walks the tree. -/
def clear : BinaryTreeNode K V → Unit
  | null => ()
  | node l _ _ r =>
    let _ := clear l
    let _ := clear r
    ()

/-- The recursive search returns a node with value `v` for `key`. -/
def Finds [LinearOrder K] [ToString K] (size : Nat) (n : BinaryTreeNode K V)
    (key : K) (v : V) : Prop :=
  ∃ l r, Subtree.find size n key = .ok (node l key v r)

end Subtree

namespace LBinaryTree

variable {K V : Type}

/-- Embeds `LBinaryTree::LBinaryTree()`, lines 37-42: the default constructor. -/
def mkEmpty : LBinaryTree K V :=
  { root := null, size := 0 }

/-- Embeds `LBinaryTree::insert(Key, Value)`, lines 238-242. -/
def insert [LinearOrder K] (t : LBinaryTree K V) (itemKey : K) (itemValue : V) :
    LBinaryTree K V :=
  let res := Subtree.insert t.root itemKey itemValue t.size
  { root := res.1, size := res.2 }

/-- Embeds `LBinaryTree::find(Key)`, lines 296-301: the value of the node the
recursive search returns. -/
def find [LinearOrder K] [ToString K] (t : LBinaryTree K V) (itemKey : K) :
    Except BinaryTreeException V :=
  match Subtree.find t.size t.root itemKey with
  | .error e => .error e
  | .ok (node _ _ v _) => .ok v
  | .ok null => .error .nullDereference

/-- Embeds `LBinaryTree::clear()`, lines 117-126. -/
def clear (t : LBinaryTree K V) : LBinaryTree K V :=
  let _ := Subtree.clear t.root
  { root := null, size := 0 }

/-- Embeds `LBinaryTree::str()`, lines 100-108. -/
def str [ToString V] (t : LBinaryTree K V) : String :=
  "<BinaryTree> size: " ++ toString t.size ++ " values: [ "
    ++ Subtree.str t.root ++ "]"

/-- The loop of the array constructor, lines 68-73, from index `idx` on.  The
two C arrays are lists; reading one past its end is undefined behaviour and
gives `none`. -/
def arrayLoop [LinearOrder K] (size : Int) (keys : List K) (values : List V)
    (idx : Nat) (t : LBinaryTree K V) : Option (LBinaryTree K V) :=
  if (idx : Int) < size then
    match keys[idx]?, values[idx]? with
    | some k, some v => arrayLoop size keys values (idx + 1) (t.insert k v)
    | _, _ => none
  else
    some t
termination_by (size - idx).toNat
decreasing_by omega

/-- Embeds `LBinaryTree::LBinaryTree(int, const Key[], const Value[])`, lines 59-74:
the array based constructor. -/
def mkArrays [LinearOrder K] (size : Int) (keys : List K) (values : List V) :
    Option (LBinaryTree K V) :=
  arrayLoop size keys values 0 { root := null, size := 0 }

/-- A sequence of calls of the public `insert`, in list order. -/
def insertAll [LinearOrder K] (t : LBinaryTree K V) (l : List (K × V)) :
    LBinaryTree K V :=
  l.foldl (fun acc p => acc.insert p.1 p.2) t

end LBinaryTree

/-- A call of one of the two public mutators. -/
inductive Op (K : Type) (V : Type) where
  | insert (itemKey : K) (itemValue : V) : Op K V
  | clear : Op K V

namespace LBinaryTree

variable {K V : Type}

/-- The state after one mutator call. -/
def step [LinearOrder K] (t : LBinaryTree K V) : Op K V → LBinaryTree K V
  | .insert k v => t.insert k v
  | .clear => t.clear

/-- The state after a sequence of mutator calls. -/
def run [LinearOrder K] (t : LBinaryTree K V) (ops : List (Op K V)) :
    LBinaryTree K V :=
  ops.foldl step t

end LBinaryTree

namespace Subtree

variable {K V : Type}

/-- Embeds `LBinaryTree::getMinimum`, lines 309-321.  The first statement calls
`node->hasLeft()`, so a null argument is a null dereference. -/
def getMinimum : BinaryTreeNode K V → Except BinaryTreeException (BinaryTreeNode K V)
  | null => .error .nullDereference
  | node l k v r =>
    if ¬ ((node l k v r).hasLeft = true) then
      .ok (node l k v r)
    else
      getMinimum l

/-- Embeds `LBinaryTree::deleteMinimum`, lines 330-343.  It returns the pointer
the caller links back; it reads and writes no field of the tree object, and
the node it unlinks is not released. -/
def deleteMinimum : BinaryTreeNode K V → Except BinaryTreeException (BinaryTreeNode K V)
  | null => .error .nullDereference
  | node l k v r =>
    if ¬ ((node l k v r).hasLeft = true) then
      .ok r
    else
      match deleteMinimum l with
      | .ok newLeft => .ok (node newLeft k v r)
      | .error e => .error e

end Subtree

namespace BinaryTreeNode

variable {K V : Type}

/-- The nodes met from a node pointer by descending only through left
children, the starting node first. -/
def leftSpine : BinaryTreeNode K V → List (BinaryTreeNode K V)
  | null => []
  | node l k v r => node l k v r :: leftSpine l

/-- Number of nodes on the longest path from a node pointer down to a leaf. -/
def height : BinaryTreeNode K V → Nat
  | null => 0
  | node l _ _ r => max (height l) (height r) + 1

/-- No node below the pointer has a left child: a chain of right links. -/
def isRightSkewed : BinaryTreeNode K V → Bool
  | null => true
  | node null _ _ r => isRightSkewed r
  | node (node _ _ _ _) _ _ _ => false

/-- No node below the pointer has a right child: a chain of left links. -/
def isLeftSkewed : BinaryTreeNode K V → Bool
  | null => true
  | node l _ _ null => isLeftSkewed l
  | node _ _ _ (node _ _ _ _) => false

end BinaryTreeNode

/-- Insertion into a list of pairs as the specification words it: the pair is
placed immediately before the first entry whose key is `>=` its key, and at the
end when there is none. -/
def insertBeforeFirstGE {K V : Type} [LinearOrder K] (k : K) (v : V) :
    List (K × V) → List (K × V)
  | [] => [(k, v)]
  | p :: ps => if k ≤ p.1 then (k, v) :: p :: ps else p :: insertBeforeFirstGE k v ps

/-! ## Node predicates -/

section NodeLemmas

variable {K V : Type}

theorem BinaryTreeNode.hasLeft_node (l r : BinaryTreeNode K V) (k : K) (x : V) :
    (node l k x r).hasLeft = true ↔ l ≠ null := by
  cases l <;> simp [hasLeft]

theorem BinaryTreeNode.hasRight_node (l r : BinaryTreeNode K V) (k : K) (x : V) :
    (node l k x r).hasRight = true ↔ r ≠ null := by
  cases r <;> simp [hasRight]

theorem BinaryTreeNode.keys_node (l r : BinaryTreeNode K V) (k : K) (x : V) :
    keys (node l k x r) = keys l ++ k :: keys r := by
  simp [keys, inorder]

theorem BinaryTreeNode.count_eq_zero (n : BinaryTreeNode K V) :
    count n = 0 ↔ n = null := by
  cases n with
  | null => simp [count]
  | node l k x r => simp [count]

end NodeLemmas

/-! ## The recursive insertion -/

section InsertLemmas

variable {K V : Type} [LinearOrder K]

theorem Subtree.insert_snd (n : BinaryTreeNode K V) (a : K) (b : V) (s : Nat) :
    (Subtree.insert n a b s).2 = s + 1 := by
  induction n with
  | null => rfl
  | node l k x r ihl ihr =>
    by_cases h : a ≤ k <;> simp [Subtree.insert, h, ihl, ihr]

theorem Subtree.insert_fst_size (n : BinaryTreeNode K V) (a : K) (b : V)
    (s s2 : Nat) : (Subtree.insert n a b s).1 = (Subtree.insert n a b s2).1 := by
  induction n with
  | null => rfl
  | node l k x r ihl ihr =>
    by_cases h : a ≤ k <;> simp [Subtree.insert, h, ihl, ihr]

theorem Subtree.insert_node_le (l r : BinaryTreeNode K V) (k a : K) (x b : V)
    (s : Nat) (h : a ≤ k) :
    (Subtree.insert (node l k x r) a b s).1 = node (Subtree.insert l a b s).1 k x r := by
  simp [Subtree.insert, h]

theorem Subtree.insert_node_gt (l r : BinaryTreeNode K V) (k a : K) (x b : V)
    (s : Nat) (h : ¬ a ≤ k) :
    (Subtree.insert (node l k x r) a b s).1 = node l k x (Subtree.insert r a b s).1 := by
  simp [Subtree.insert, h]

theorem Subtree.insert_ne_null (n : BinaryTreeNode K V) (a : K) (b : V) (s : Nat) :
    ∃ l k x r, (Subtree.insert n a b s).1 = node l k x r := by
  cases n with
  | null => exact ⟨null, a, b, null, rfl⟩
  | node l k x r =>
    by_cases h : a ≤ k
    · exact ⟨_, _, _, _, Subtree.insert_node_le l r k a x b s h⟩
    · exact ⟨_, _, _, _, Subtree.insert_node_gt l r k a x b s h⟩

theorem Subtree.insert_fst_ne_null (n : BinaryTreeNode K V) (a : K) (b : V)
    (s : Nat) : (Subtree.insert n a b s).1 ≠ null := by
  obtain ⟨l, k, x, r, e⟩ := Subtree.insert_ne_null n a b s
  rw [e]
  simp

theorem Subtree.inorder_insert_perm (n : BinaryTreeNode K V) (a : K) (b : V)
    (s : Nat) : (inorder (Subtree.insert n a b s).1).Perm ((a, b) :: inorder n) := by
  induction n with
  | null => simp [Subtree.insert, inorder]
  | node l k x r ihl ihr =>
    by_cases h : a ≤ k
    · rw [Subtree.insert_node_le l r k a x b s h]
      simp only [inorder]
      exact (List.Perm.append_right _ ihl).trans (by simp)
    · rw [Subtree.insert_node_gt l r k a x b s h]
      simp only [inorder]
      have h1 : (inorder l ++ (k, x) :: inorder (Subtree.insert r a b s).1).Perm
          (inorder l ++ (k, x) :: (a, b) :: inorder r) :=
        List.Perm.append_left _ (List.Perm.cons _ ihr)
      refine h1.trans ?_
      have h2 : ((inorder l ++ [(k, x)]) ++ (a, b) :: inorder r).Perm
          ((a, b) :: ((inorder l ++ [(k, x)]) ++ inorder r)) := List.perm_middle
      simp only [List.append_assoc, List.singleton_append] at h2
      exact h2

theorem Subtree.mem_keys_insert (n : BinaryTreeNode K V) (a : K) (b : V)
    (s : Nat) (y : K) :
    y ∈ keys (Subtree.insert n a b s).1 ↔ y = a ∨ y ∈ keys n := by
  unfold keys
  rw [((Subtree.inorder_insert_perm n a b s).map Prod.fst).mem_iff]
  simp

theorem Subtree.isBST_insert (n : BinaryTreeNode K V) (a : K) (b : V) (s : Nat)
    (h : isBST n) : isBST (Subtree.insert n a b s).1 := by
  induction n with
  | null => simp [Subtree.insert, isBST, keys, inorder]
  | node l k x r ihl ihr =>
    obtain ⟨hl, hr, bl, br⟩ := h
    by_cases hle : a ≤ k
    · rw [Subtree.insert_node_le l r k a x b s hle]
      refine ⟨?_, hr, ihl bl, br⟩
      intro y hy
      rcases (Subtree.mem_keys_insert l a b s y).1 hy with rfl | hy
      · exact hle
      · exact hl y hy
    · rw [Subtree.insert_node_gt l r k a x b s hle]
      refine ⟨hl, ?_, bl, ihr br⟩
      intro y hy
      rcases (Subtree.mem_keys_insert r a b s y).1 hy with rfl | hy
      · exact lt_of_not_le hle
      · exact hr y hy

theorem Subtree.count_insert (n : BinaryTreeNode K V) (a : K) (b : V) (s : Nat) :
    count (Subtree.insert n a b s).1 = count n + 1 := by
  induction n with
  | null => rfl
  | node l k x r ihl ihr =>
    by_cases h : a ≤ k
    · rw [Subtree.insert_node_le l r k a x b s h]; simp only [count, ihl]; omega
    · rw [Subtree.insert_node_gt l r k a x b s h]; simp only [count, ihr]; omega

theorem LBinaryTree.insertAll_append (t : LBinaryTree K V) (l1 l2 : List (K × V)) :
    t.insertAll (l1 ++ l2) = (t.insertAll l1).insertAll l2 := by
  simp [LBinaryTree.insertAll, List.foldl_append]

theorem LBinaryTree.insertAll_cons (t : LBinaryTree K V) (p : K × V)
    (l : List (K × V)) : t.insertAll (p :: l) = (t.insert p.1 p.2).insertAll l := rfl

theorem LBinaryTree.insertAll_nil (t : LBinaryTree K V) : t.insertAll [] = t := rfl

theorem LBinaryTree.isBST_insertAll (l : List (K × V)) (t : LBinaryTree K V)
    (h : isBST t.root) : isBST (t.insertAll l).root := by
  induction l generalizing t with
  | nil => exact h
  | cons p l ih =>
    rw [LBinaryTree.insertAll_cons]
    exact ih _ (Subtree.isBST_insert t.root p.1 p.2 t.size h)

end InsertLemmas

/-! ## The recursive search -/

section FindLemmas

variable {K V : Type} [LinearOrder K] [ToString K]

/-- The recursive search either throws the not-found exception with the
message of the searched key and the size, or returns a node of the subtree
that carries the searched key. -/
theorem Subtree.find_cases (size : Nat) (n : BinaryTreeNode K V) (key : K) :
    Subtree.find size n key
        = .error (.BinaryTreeKeyNotFoundException (Subtree.notFoundMessage key size))
      ∨ ∃ l v r, Subtree.find size n key = .ok (node l key v r)
          ∧ (key, v) ∈ inorder n := by
  induction n with
  | null => left; rfl
  | node l k x r ihl ihr =>
    unfold Subtree.find
    by_cases h1 : k = key
    · right
      subst h1
      exact ⟨l, x, r, by simp, by simp [inorder]⟩
    · rw [if_neg h1]
      by_cases h2 : key < k ∧ (node l k x r).hasLeft = true
      · rw [if_pos h2]
        rcases ihl with e | ⟨l2, v, r2, e, hm⟩
        · exact Or.inl e
        · exact Or.inr ⟨l2, v, r2, e, by simp [inorder, hm]⟩
      · rw [if_neg h2]
        by_cases h3 : (node l k x r).hasRight = true
        · rw [if_pos h3]
          rcases ihr with e | ⟨l2, v, r2, e, hm⟩
          · exact Or.inl e
          · exact Or.inr ⟨l2, v, r2, e, by simp [inorder, hm]⟩
        · rw [if_neg h3]
          exact Or.inl rfl

/-- A successful search returns the same node whatever the value of the size
counter, which only enters the message. -/
theorem Subtree.find_ok_size (s1 s2 : Nat) (n : BinaryTreeNode K V) (key : K)
    (m : BinaryTreeNode K V) (h : Subtree.find s1 n key = .ok m) :
    Subtree.find s2 n key = .ok m := by
  induction n with
  | null => cases h
  | node l k x r ihl ihr =>
    unfold Subtree.find at h ⊢
    by_cases h1 : k = key
    · rw [if_pos h1] at h ⊢
      exact h
    · rw [if_neg h1] at h ⊢
      by_cases h2 : key < k ∧ (node l k x r).hasLeft = true
      · rw [if_pos h2] at h ⊢
        exact ihl h
      · rw [if_neg h2] at h ⊢
        by_cases h3 : (node l k x r).hasRight = true
        · rw [if_pos h3] at h ⊢
          exact ihr h
        · rw [if_neg h3] at h
          cases h

/-- A key that is in no node of the subtree is found right after its
insertion, in the new leaf. -/
theorem Subtree.find_insert_new (size s : Nat) (n : BinaryTreeNode K V) (a : K)
    (b : V) (h : a ∉ keys n) :
    Subtree.find size (Subtree.insert n a b s).1 a = .ok (node null a b null) := by
  induction n with
  | null => simp [Subtree.insert, Subtree.find]
  | node l k x r ihl ihr =>
    have hk : k ≠ a := by
      intro e
      apply h
      simp [keys, inorder, e]
    have hl : a ∉ keys l := by
      intro e
      apply h
      simp only [keys, inorder, List.map_append, List.mem_append]
      exact Or.inl e
    have hr : a ∉ keys r := by
      intro e
      apply h
      simp only [keys, inorder, List.map_append, List.mem_append, List.map_cons,
        List.mem_cons]
      exact Or.inr (Or.inr e)
    by_cases hle : a ≤ k
    · rw [Subtree.insert_node_le l r k a x b s hle]
      unfold Subtree.find
      rw [if_neg hk, if_pos]
      · exact ihl hl
      · exact ⟨lt_of_le_of_ne hle (Ne.symm hk),
          (hasLeft_node _ _ _ _).2 (Subtree.insert_fst_ne_null l a b s)⟩
    · rw [Subtree.insert_node_gt l r k a x b s hle]
      unfold Subtree.find
      rw [if_neg hk, if_neg, if_pos]
      · exact ihr hr
      · exact (hasRight_node _ _ _ _).2 (Subtree.insert_fst_ne_null r a b s)
      · intro hc
        exact hle (le_of_lt hc.1)

theorem Subtree.Finds.mem {size : Nat} {n : BinaryTreeNode K V} {key : K} {v : V}
    (h : Subtree.Finds size n key v) : key ∈ keys n := by
  obtain ⟨l, r, e⟩ := h
  rcases Subtree.find_cases size n key with e2 | ⟨l2, v2, r2, e2, hm⟩
  · rw [e] at e2
    cases e2
  · exact List.mem_map.2 ⟨(key, v2), hm, rfl⟩

/-- In a tree that satisfies the ordering invariant, a successful search keeps
its value when a pair is inserted. -/
theorem Subtree.Finds.insert {s1 s2 s : Nat} {n : BinaryTreeNode K V} {key : K}
    {v : V} (a : K) (b : V) (hb : isBST n) (h : Subtree.Finds s1 n key v) :
    Subtree.Finds s2 (Subtree.insert n a b s).1 key v := by
  induction n with
  | null =>
    obtain ⟨l, r, e⟩ := h
    cases e
  | node l k x r ihl ihr =>
    obtain ⟨hlk, hrk, bl, br⟩ := hb
    by_cases h1 : k = key
    · subst h1
      obtain ⟨l2, r2, e⟩ := h
      simp only [Subtree.find, if_true] at e
      injection e with e
      injection e with _ _ e3 _
      subst e3
      by_cases hle : a ≤ k
      · rw [Subtree.insert_node_le l r k a x b s hle]
        exact ⟨_, _, by unfold Subtree.find; rw [if_pos rfl]⟩
      · rw [Subtree.insert_node_gt l r k a x b s hle]
        exact ⟨_, _, by unfold Subtree.find; rw [if_pos rfl]⟩
    · by_cases h2 : key < k ∧ (node l k x r).hasLeft = true
      · have hfl : Subtree.Finds s1 l key v := by
          obtain ⟨l2, r2, e⟩ := h
          unfold Subtree.find at e
          rw [if_neg h1, if_pos h2] at e
          exact ⟨l2, r2, e⟩
        by_cases hle : a ≤ k
        · rw [Subtree.insert_node_le l r k a x b s hle]
          obtain ⟨l3, r3, e3⟩ := ihl bl hfl
          refine ⟨l3, r3, ?_⟩
          unfold Subtree.find
          rw [if_neg h1, if_pos]
          · exact e3
          · exact ⟨h2.1, (hasLeft_node _ _ _ _).2 (Subtree.insert_fst_ne_null l a b s)⟩
        · rw [Subtree.insert_node_gt l r k a x b s hle]
          obtain ⟨l3, r3, e3⟩ := hfl
          refine ⟨l3, r3, ?_⟩
          have e4 : Subtree.find s2 l key = .ok (node l3 key v r3) :=
            Subtree.find_ok_size s1 s2 l key _ e3
          unfold Subtree.find
          rw [if_neg h1, if_pos]
          · exact e4
          · exact ⟨h2.1, (hasLeft_node _ _ _ _).2 ((hasLeft_node _ _ _ _).1 h2.2)⟩
      · have hfr : Subtree.Finds s1 r key v ∧ (node l k x r).hasRight = true := by
          obtain ⟨l2, r2, e⟩ := h
          unfold Subtree.find at e
          rw [if_neg h1, if_neg h2] at e
          by_cases h3 : (node l k x r).hasRight = true
          · rw [if_pos h3] at e
            exact ⟨⟨l2, r2, e⟩, h3⟩
          · rw [if_neg h3] at e
            cases e
        have hlt : ¬ key < k := fun hc => absurd (hrk key hfr.1.mem) (not_lt.2 (le_of_lt hc))
        by_cases hle : a ≤ k
        · rw [Subtree.insert_node_le l r k a x b s hle]
          obtain ⟨l3, r3, e3⟩ := hfr.1
          refine ⟨l3, r3, ?_⟩
          unfold Subtree.find
          rw [if_neg h1, if_neg (fun hc => hlt hc.1), if_pos]
          · exact Subtree.find_ok_size s1 s2 r key _ e3
          · exact (hasRight_node _ _ _ _).2 ((hasRight_node _ _ _ _).1 hfr.2)
        · rw [Subtree.insert_node_gt l r k a x b s hle]
          obtain ⟨l3, r3, e3⟩ := ihr br hfr.1
          refine ⟨l3, r3, ?_⟩
          unfold Subtree.find
          rw [if_neg h1, if_neg (fun hc => hlt hc.1), if_pos]
          · exact e3
          · exact (hasRight_node _ _ _ _).2 (Subtree.insert_fst_ne_null r a b s)

end FindLemmas

/-! ## Sequences of insertions -/

section BuildLemmas

variable {K V : Type} [LinearOrder K]

theorem LBinaryTree.inorder_insertAll_perm (l : List (K × V)) (t : LBinaryTree K V) :
    (inorder (t.insertAll l).root).Perm (l ++ inorder t.root) := by
  induction l generalizing t with
  | nil => exact List.Perm.refl _
  | cons p l ih =>
    rw [LBinaryTree.insertAll_cons]
    refine (ih _).trans ?_
    have h1 : (inorder (t.insert p.1 p.2).root).Perm (p :: inorder t.root) :=
      Subtree.inorder_insert_perm t.root p.1 p.2 t.size
    exact (List.Perm.append_left l h1).trans List.perm_middle

theorem LBinaryTree.mem_keys_insertAll (l : List (K × V)) (y : K) :
    y ∈ keys ((LBinaryTree.mkEmpty : LBinaryTree K V).insertAll l).root
      ↔ y ∈ l.map Prod.fst := by
  unfold keys
  rw [((LBinaryTree.inorder_insertAll_perm l LBinaryTree.mkEmpty).map Prod.fst).mem_iff]
  simp [LBinaryTree.mkEmpty, inorder]

theorem LBinaryTree.size_insertAll (l : List (K × V)) (t : LBinaryTree K V) :
    (t.insertAll l).size = t.size + l.length := by
  induction l generalizing t with
  | nil => rfl
  | cons p l ih =>
    rw [LBinaryTree.insertAll_cons, ih]
    simp only [LBinaryTree.insert, Subtree.insert_snd, List.length_cons]
    omega

theorem BinaryTreeNode.isBST.sorted_keys {n : BinaryTreeNode K V} (h : isBST n) :
    (keys n).Pairwise (· ≤ ·) := by
  induction n with
  | null => simp [keys, inorder]
  | node l k x r ihl ihr =>
    obtain ⟨hl, hr, bl, br⟩ := h
    rw [BinaryTreeNode.keys_node, List.pairwise_append]
    refine ⟨ihl bl, List.pairwise_cons.2 ⟨fun y hy => le_of_lt (hr y hy), ihr br⟩, ?_⟩
    intro y hy z hz
    rcases List.mem_cons.1 hz with rfl | hz
    · exact hl y hy
    · exact le_trans (hl y hy) (le_of_lt (hr z hz))

theorem first_occurrence (l : List (K × V)) (key : K)
    (h : key ∈ l.map Prod.fst) :
    ∃ pre v post, l = pre ++ (key, v) :: post ∧ key ∉ pre.map Prod.fst := by
  induction l with
  | nil => simp at h
  | cons p l ih =>
    by_cases hp : p.1 = key
    · exact ⟨[], p.2, l, by simp [← hp], by simp⟩
    · have h2 : key ∈ l.map Prod.fst := by
        rw [List.map_cons] at h
        rcases List.mem_cons.1 h with e | e
        · exact absurd e.symm hp
        · exact e
      obtain ⟨pre, v, post, e, hn⟩ := ih h2
      refine ⟨p :: pre, v, post, by simp [e], ?_⟩
      simp only [List.map_cons, List.mem_cons, not_or]
      exact ⟨fun e2 => hp e2.symm, hn⟩

end BuildLemmas

/-! ## Rendering -/

section StrLemmas

variable {K V : Type}

theorem foldl_append_string (l : List String) (s : String) :
    l.foldl (fun r x => r ++ x) s = s ++ l.foldl (fun r x => r ++ x) "" := by
  induction l generalizing s with
  | nil => simp
  | cons a l ih =>
    simp only [List.foldl_cons]
    rw [ih (s ++ a), ih ("" ++ a), String.empty_append, String.append_assoc]

theorem join_append_string (l1 l2 : List String) :
    String.join (l1 ++ l2) = String.join l1 ++ String.join l2 := by
  simp only [String.join, List.foldl_append]
  exact foldl_append_string l2 _

theorem join_cons_string (a : String) (l : List String) :
    String.join (a :: l) = a ++ String.join l := by
  simp only [String.join, List.foldl_cons, String.empty_append]
  exact foldl_append_string l a

theorem Subtree.str_eq_join [ToString V] (n : BinaryTreeNode K V) :
    Subtree.str n = String.join ((inorder n).map (fun p => toString p.2 ++ " ")) := by
  induction n with
  | null => rfl
  | node l k x r ihl ihr =>
    simp only [Subtree.str, inorder, List.map_append, List.map_cons,
      join_append_string, join_cons_string, ihl, ihr, String.append_assoc]

end StrLemmas

/-! ## The array constructor and the reachable states -/

section StateLemmas

variable {K V : Type} [LinearOrder K]

theorem LBinaryTree.arrayLoop_eq (keys : List K) (values : List V)
    (hlen : keys.length = values.length) (d idx : Nat) (t : LBinaryTree K V)
    (hd : idx + d = keys.length) :
    LBinaryTree.arrayLoop (keys.length : Int) keys values idx t
      = some (t.insertAll ((keys.zip values).drop idx)) := by
  induction d generalizing idx t with
  | zero =>
    rw [LBinaryTree.arrayLoop, if_neg (by omega)]
    rw [List.drop_eq_nil_of_le (by simp [List.length_zip]; omega)]
    rfl
  | succ d ih =>
    have hk : idx < keys.length := by omega
    have hv : idx < values.length := by omega
    rw [LBinaryTree.arrayLoop, if_pos (by omega)]
    rw [List.getElem?_eq_getElem hk, List.getElem?_eq_getElem hv]
    simp only
    rw [ih (idx + 1) _ (by omega)]
    have hz : idx < (keys.zip values).length := by simp [List.length_zip]; omega
    rw [List.drop_eq_getElem_cons hz, LBinaryTree.insertAll_cons]
    simp

theorem LBinaryTree.arrayLoop_nonpos (size : Int) (hs : size ≤ 0) (keys : List K)
    (values : List V) (t : LBinaryTree K V) :
    LBinaryTree.arrayLoop size keys values 0 t = some t := by
  rw [LBinaryTree.arrayLoop, if_neg (by push_cast; omega)]

/-- The size field counts the nodes. -/
theorem LBinaryTree.arrayLoop_counts (size : Int) (keys : List K) (values : List V)
    (d idx : Nat) (t t2 : LBinaryTree K V) (hd : (size - idx).toNat = d)
    (ht : t.size = count t.root)
    (h : LBinaryTree.arrayLoop size keys values idx t = some t2) :
    t2.size = count t2.root := by
  induction d generalizing idx t with
  | zero =>
    rw [LBinaryTree.arrayLoop, if_neg (by omega)] at h
    injection h with h
    rw [← h]
    exact ht
  | succ d ih =>
    rw [LBinaryTree.arrayLoop, if_pos (by omega)] at h
    cases hk : keys[idx]? with
    | none => simp [hk] at h
    | some k =>
      cases hv : values[idx]? with
      | none => simp [hk, hv] at h
      | some v =>
        simp only [hk, hv] at h
        refine ih (idx + 1) (t.insert k v) (by omega) ?_ h
        simp [LBinaryTree.insert, Subtree.insert_snd, Subtree.count_insert, ht]

theorem LBinaryTree.step_counts (t : LBinaryTree K V) (op : Op K V)
    (ht : t.size = count t.root) : (t.step op).size = count (t.step op).root := by
  cases op with
  | insert k v =>
    simp [LBinaryTree.step, LBinaryTree.insert, Subtree.insert_snd,
      Subtree.count_insert, ht]
  | clear => rfl

theorem LBinaryTree.run_counts (ops : List (Op K V)) (t : LBinaryTree K V)
    (ht : t.size = count t.root) : (t.run ops).size = count (t.run ops).root := by
  induction ops generalizing t with
  | nil => exact ht
  | cons op ops ih => exact ih _ (LBinaryTree.step_counts t op ht)

end StateLemmas

/-! ## The properties of the specification -/

section Claims

variable {K V : Type} [LinearOrder K]

/-- C1: insertion preserves the ordering invariant.  If a subtree satisfies it
(left keys `<=` the node key, right keys `>` it, at every node), so does the
subtree the recursive insert returns and so does the root after the public
insert, whatever the key, the value and the size counter; and every tree built
from the empty tree by a sequence of inserts satisfies it. -/
theorem insert_preserves_ordering (n : BinaryTreeNode K V) (size : Nat)
    (itemKey : K) (itemValue : V) (l : List (K × V)) (h : isBST n) :
    isBST (Subtree.insert n itemKey itemValue size).1
      ∧ isBST (({ root := n, size := size } : LBinaryTree K V).insert itemKey itemValue).root
      ∧ isBST ((LBinaryTree.mkEmpty : LBinaryTree K V).insertAll l).root :=
  ⟨Subtree.isBST_insert n itemKey itemValue size h,
    Subtree.isBST_insert n itemKey itemValue size h,
    LBinaryTree.isBST_insertAll l LBinaryTree.mkEmpty trivial⟩

theorem insert_preserves_ordering_witness :
    isBST (node (node null 3 "b" null) (5 : Int) "a" null)
      ∧ isBST (Subtree.insert (node (node null 3 "b" null) (5 : Int) "a" null) 3 "c" 2).1
      ∧ isBST ((LBinaryTree.mkEmpty : LBinaryTree Int String).insertAll
          [(5, "a"), (3, "b"), (3, "c"), (8, "d")]).root :=
  have h : isBST (node (node null 3 "b" null) (5 : Int) "a" null) := by decide
  ⟨h, (insert_preserves_ordering _ 2 3 "c" [(5, "a"), (3, "b"), (3, "c"), (8, "d")] h).1,
    (insert_preserves_ordering _ 2 3 "c" [(5, "a"), (3, "b"), (3, "c"), (8, "d")] h).2.2⟩

/-- C2: for every tree built from the empty tree by a sequence of inserts, the
in-order sequence (left subtree, node, right subtree) has its keys in
non-decreasing order, and the recursive `str` renders exactly the values of
that sequence, in that order, each followed by one blank. -/
theorem inorder_of_inserts_sorted [ToString V] (l : List (K × V)) :
    (inorder ((LBinaryTree.mkEmpty : LBinaryTree K V).insertAll l).root).Pairwise
        (fun p q => p.1 ≤ q.1)
      ∧ Subtree.str ((LBinaryTree.mkEmpty : LBinaryTree K V).insertAll l).root
        = String.join
            ((inorder ((LBinaryTree.mkEmpty : LBinaryTree K V).insertAll l).root).map
              (fun p => toString p.2 ++ " ")) := by
  refine ⟨?_, Subtree.str_eq_join _⟩
  have h := (LBinaryTree.isBST_insertAll l (LBinaryTree.mkEmpty : LBinaryTree K V)
    trivial).sorted_keys
  unfold keys at h
  exact List.pairwise_map.1 h

/-- C3: first insertion wins.  A key that occurs in the sequence of inserts has
an earliest pair: the sequence is `pre`, then `(key, v)`, then `post`, with no
pair of `pre` carrying `key`.  For every such splitting the public `find key`
on the tree built from the empty tree returns `v`, whatever `post` holds
(later pairs with the same key included). -/
theorem find_returns_first_inserted [ToString K] (l : List (K × V)) (key : K)
    (h : key ∈ l.map Prod.fst) :
    (∃ pre v post, l = pre ++ (key, v) :: post ∧ key ∉ pre.map Prod.fst)
      ∧ ∀ pre v post, l = pre ++ (key, v) :: post → key ∉ pre.map Prod.fst →
          ((LBinaryTree.mkEmpty : LBinaryTree K V).insertAll l).find key = .ok v := by
  refine ⟨first_occurrence l key h, ?_⟩
  intro pre v post hl hpre
  subst hl
  have hf : ∀ (post : List (K × V)) (t : LBinaryTree K V), isBST t.root →
      Subtree.Finds t.size t.root key v →
      Subtree.Finds (t.insertAll post).size (t.insertAll post).root key v := by
    intro post
    induction post with
    | nil => intro t _ hF; exact hF
    | cons p post ih =>
      intro t hb hF
      rw [LBinaryTree.insertAll_cons]
      exact ih _ (Subtree.isBST_insert t.root p.1 p.2 t.size hb) (hF.insert p.1 p.2 hb)
  rw [LBinaryTree.insertAll_append, LBinaryTree.insertAll_cons]
  have hb := LBinaryTree.isBST_insertAll pre (LBinaryTree.mkEmpty : LBinaryTree K V) trivial
  have hk : key ∉ keys ((LBinaryTree.mkEmpty : LBinaryTree K V).insertAll pre).root :=
    fun hc => hpre ((LBinaryTree.mem_keys_insertAll pre key).1 hc)
  obtain ⟨l2, r2, e⟩ := hf post
    (((LBinaryTree.mkEmpty : LBinaryTree K V).insertAll pre).insert key v)
    (Subtree.isBST_insert _ key v _ hb)
    ⟨null, null, Subtree.find_insert_new _ _ _ key v hk⟩
  unfold LBinaryTree.find
  simp only [] at e ⊢
  rw [e]

theorem find_returns_first_inserted_witness :
    ((LBinaryTree.mkEmpty : LBinaryTree Int String).insertAll
        [(5, "a"), (3, "b"), (8, "c")]).find 3 = .ok "b"
      ∧ ((LBinaryTree.mkEmpty : LBinaryTree Int String).insertAll
        [(4, "p"), (4, "q")]).find 4 = .ok "p" :=
  ⟨(find_returns_first_inserted [(5, "a"), (3, "b"), (8, "c")] 3 (by decide)).2
      [(5, "a")] "b" [(8, "c")] rfl (by decide),
    (find_returns_first_inserted [(4, "p"), (4, "q")] 4 (by decide)).2
      [] "p" [(4, "q")] rfl (by decide)⟩

/-- C4: not found.  The public `find` on the empty tree throws the
key-not-found exception for every key, and so it does on the tree built from
the empty tree by a sequence of inserts for every key that differs from all
the inserted keys. -/
theorem find_absent_key_fails [ToString K] (l : List (K × V)) (key : K)
    (h : key ∉ l.map Prod.fst) :
    (∀ k : K, (LBinaryTree.mkEmpty : LBinaryTree K V).find k
        = .error (.BinaryTreeKeyNotFoundException (Subtree.notFoundMessage k 0)))
      ∧ ((LBinaryTree.mkEmpty : LBinaryTree K V).insertAll l).find key
        = .error (.BinaryTreeKeyNotFoundException
            (Subtree.notFoundMessage key l.length)) := by
  refine ⟨fun _ => rfl, ?_⟩
  have hs : ((LBinaryTree.mkEmpty : LBinaryTree K V).insertAll l).size = l.length := by
    rw [LBinaryTree.size_insertAll]
    simp [LBinaryTree.mkEmpty]
  unfold LBinaryTree.find
  rcases Subtree.find_cases ((LBinaryTree.mkEmpty : LBinaryTree K V).insertAll l).size
    ((LBinaryTree.mkEmpty : LBinaryTree K V).insertAll l).root key with e | ⟨l2, v, r2, e, hm⟩
  · rw [e, hs]
  · exact absurd ((LBinaryTree.mem_keys_insertAll l key).1
      (List.mem_map.2 ⟨(key, v), hm, rfl⟩)) h

theorem find_absent_key_fails_witness :
    ((LBinaryTree.mkEmpty : LBinaryTree Int String).insertAll [(5, "a")]).find 9
      = .error (.BinaryTreeKeyNotFoundException
          "Error: <LBinaryTree>::find() failed to find key 9 from tree, size:  1") :=
  (find_absent_key_fails [(5, "a")] 9 (by decide)).2

/-- C5: size invariant.  From a state produced by the default constructor or
by the array constructor, after any sequence of calls of `insert` and `clear`
the size field equals the number of nodes reachable from the root, and the
root is null exactly when the size is 0. -/
theorem size_counts_reachable_nodes (n : Int) (keys : List K) (values : List V)
    (t0 : LBinaryTree K V) (ops : List (Op K V))
    (h : t0 = LBinaryTree.mkEmpty ∨ LBinaryTree.mkArrays n keys values = some t0) :
    (t0.run ops).size = count (t0.run ops).root
      ∧ ((t0.run ops).root = null ↔ (t0.run ops).size = 0) := by
  have h0 : t0.size = count t0.root := by
    rcases h with rfl | h
    · rfl
    · exact LBinaryTree.arrayLoop_counts n keys values _ 0 _ t0 rfl rfl h
  have h1 := LBinaryTree.run_counts ops t0 h0
  refine ⟨h1, ?_⟩
  rw [h1, BinaryTreeNode.count_eq_zero]

theorem size_counts_reachable_nodes_witness :
    ((LBinaryTree.mkEmpty : LBinaryTree Int String).run
          [.insert 5 "a", .clear, .insert 4 "p", .insert 4 "q"]).size
        = count ((LBinaryTree.mkEmpty : LBinaryTree Int String).run
          [.insert 5 "a", .clear, .insert 4 "p", .insert 4 "q"]).root
      ∧ ∃ t0 : LBinaryTree Int String,
          LBinaryTree.mkArrays 3 [2, 1, 3] ["x", "y", "z"] = some t0
            ∧ ((t0.run [.insert 0 "w"]).root = null ↔ (t0.run [.insert 0 "w"]).size = 0) :=
  ⟨(size_counts_reachable_nodes 0 [] [] LBinaryTree.mkEmpty
      [.insert 5 "a", .clear, .insert 4 "p", .insert 4 "q"] (Or.inl rfl)).1,
    LBinaryTree.mkEmpty.insertAll [(2, "x"), (1, "y"), (3, "z")],
    LBinaryTree.arrayLoop_eq [(2 : Int), 1, 3] ["x", "y", "z"] rfl 3 0
      { root := null, size := 0 } rfl,
    (size_counts_reachable_nodes 3 [2, 1, 3] ["x", "y", "z"]
      (LBinaryTree.mkEmpty.insertAll [(2, "x"), (1, "y"), (3, "z")]) [.insert 0 "w"]
      (Or.inr (LBinaryTree.arrayLoop_eq [(2 : Int), 1, 3] ["x", "y", "z"] rfl 3 0
        { root := null, size := 0 } rfl))).2⟩

/-- C6: one call of `insert` increases the size by exactly 1, for every tree
state, key and value (a key already present included); hence after the inserts
of any list of pairs into the empty tree the size is the length of the list. -/
theorem insert_increments_size (t : LBinaryTree K V) (itemKey : K) (itemValue : V)
    (l : List (K × V)) :
    (t.insert itemKey itemValue).size = t.size + 1
      ∧ ((LBinaryTree.mkEmpty : LBinaryTree K V).insertAll l).size = l.length := by
  refine ⟨Subtree.insert_snd t.root itemKey itemValue t.size, ?_⟩
  rw [LBinaryTree.size_insertAll]
  simp [LBinaryTree.mkEmpty]

/-- C7: insert never overwrites or loses an entry.  The multiset of key/value
pairs below the pointer returned by the recursive insert is the multiset below
the given pointer plus one occurrence of the inserted pair, also when the key
is already present; and at a node whose key equals the inserted key the node
keeps its key, value and right subtree while the pair goes into its left
subtree. -/
theorem insert_adds_one_entry (n : BinaryTreeNode K V) (itemKey : K) (itemValue : V)
    (size : Nat) :
    ((inorder (Subtree.insert n itemKey itemValue size).1 : List (K × V)) : Multiset (K × V))
        = (itemKey, itemValue) ::ₘ ((inorder n : List (K × V)) : Multiset (K × V))
      ∧ ∀ (l r : BinaryTreeNode K V) (x : V),
          (Subtree.insert (node l itemKey x r) itemKey itemValue size).1
            = node (Subtree.insert l itemKey itemValue size).1 itemKey x r := by
  refine ⟨?_, fun l r x => Subtree.insert_node_le l r itemKey itemKey x itemValue size le_rfl⟩
  rw [Multiset.cons_coe]
  exact Multiset.coe_eq_coe.2 (Subtree.inorder_insert_perm n itemKey itemValue size)

/-- C8: `clear` yields exactly the empty state from every state, so it is
idempotent, an insert after it gives a tree of one node, and any sequence of
inserts after it gives the same state, hence the same search results and the
same rendering, as on a newly constructed empty tree. -/
theorem clear_resets_to_empty [ToString K] [ToString V] (t : LBinaryTree K V)
    (l : List (K × V)) (key : K) (v : V) :
    t.clear = LBinaryTree.mkEmpty
      ∧ t.clear.clear = t.clear
      ∧ t.clear.insert key v = { root := node null key v null, size := 1 }
      ∧ t.clear.insertAll l = (LBinaryTree.mkEmpty : LBinaryTree K V).insertAll l
      ∧ (t.clear.insertAll l).find key
          = ((LBinaryTree.mkEmpty : LBinaryTree K V).insertAll l).find key
      ∧ (t.clear.insertAll l).str
          = ((LBinaryTree.mkEmpty : LBinaryTree K V).insertAll l).str :=
  ⟨rfl, rfl, rfl, rfl, rfl, rfl⟩

end Claims

section RenderingClaim

variable {K V : Type}

/-- C9: for every tree state, `str()` is the text `<BinaryTree> size: `, the
decimal digits of the size, ` values: [ `, then for each node in in-order
sequence the rendering of its value followed by one blank, then `]`.  The
empty tree renders as `<BinaryTree> size: 0 values: [ ]`, and the tree built by
the inserts (5,a), (3,b), (8,c) as `<BinaryTree> size: 3 values: [ b a c ]`. -/
theorem str_format [ToString V] (t : LBinaryTree K V) :
    t.str = "<BinaryTree> size: " ++ (Nat.toDigits 10 t.size).asString ++ " values: [ "
        ++ String.join ((inorder t.root).map (fun p => toString p.2 ++ " ")) ++ "]"
      ∧ (LBinaryTree.mkEmpty : LBinaryTree Int String).str
        = "<BinaryTree> size: 0 values: [ ]"
      ∧ ((LBinaryTree.mkEmpty : LBinaryTree Int String).insertAll
          [(5, "a"), (3, "b"), (8, "c")]).str
        = "<BinaryTree> size: 3 values: [ b a c ]" := by
  refine ⟨?_, by decide, by decide⟩
  unfold LBinaryTree.str
  rw [Subtree.str_eq_join]
  rfl

end RenderingClaim

section ConstructorClaim

variable {K V : Type} [LinearOrder K]

/-- C10: when both arrays have length `n`, the array constructor returns the
state obtained from the empty tree by the inserts of `(keys[0], values[0])`,
..., `(keys[n-1], values[n-1])` in index order; and for every `m <= 0` it
returns the empty tree, whatever the arrays. -/
theorem array_constructor_inserts_in_order (n : Int) (keys : List K) (values : List V)
    (hk : (keys.length : Int) = n) (hv : (values.length : Int) = n) :
    LBinaryTree.mkArrays n keys values
        = some ((LBinaryTree.mkEmpty : LBinaryTree K V).insertAll (keys.zip values))
      ∧ ∀ (m : Int) (ks : List K) (vs : List V), m ≤ 0 →
          LBinaryTree.mkArrays m ks vs = some LBinaryTree.mkEmpty := by
  refine ⟨?_, fun m ks vs hm => LBinaryTree.arrayLoop_nonpos m hm ks vs _⟩
  subst hk
  have e := LBinaryTree.arrayLoop_eq keys values (by omega) keys.length 0
    ({ root := null, size := 0 } : LBinaryTree K V) (by omega)
  rw [List.drop_zero] at e
  exact e

theorem array_constructor_inserts_in_order_witness :
    ∃ t : LBinaryTree Int String,
      LBinaryTree.mkArrays 3 [2, 1, 3] ["x", "y", "z"] = some t
        ∧ t = { root := node (node null 1 "y" null) 2 "x" (node null 3 "z" null), size := 3 }
        ∧ t.find 1 = .ok "y" :=
  ⟨_, (array_constructor_inserts_in_order 3 [2, 1, 3] ["x", "y", "z"] rfl rfl).1, rfl, rfl⟩

end ConstructorClaim

/-! ## The minimum of a subtree -/

section MinimumLemmas

variable {K V : Type}

theorem Subtree.getMinimum_leaf (k : K) (v : V) (r : BinaryTreeNode K V) :
    Subtree.getMinimum (node null k v r) = .ok (node null k v r) := by
  simp [Subtree.getMinimum, hasLeft]

theorem Subtree.getMinimum_left (ll lr r : BinaryTreeNode K V) (lk k : K) (lv v : V) :
    Subtree.getMinimum (node (node ll lk lv lr) k v r)
      = Subtree.getMinimum (node ll lk lv lr) := by
  rw [Subtree.getMinimum]
  simp [hasLeft]

theorem Subtree.deleteMinimum_leaf (k : K) (v : V) (r : BinaryTreeNode K V) :
    Subtree.deleteMinimum (node null k v r) = .ok r := by
  simp [Subtree.deleteMinimum, hasLeft]

theorem Subtree.deleteMinimum_left (ll lr r m : BinaryTreeNode K V) (lk k : K)
    (lv v : V) (h : Subtree.deleteMinimum (node ll lk lv lr) = .ok m) :
    Subtree.deleteMinimum (node (node ll lk lv lr) k v r) = .ok (node m k v r) := by
  rw [Subtree.deleteMinimum]
  simp [hasLeft, h]

/-- On a non-null pointer both functions return: `getMinimum` the last node of
the left spine, which has no left child, and `deleteMinimum` a subtree whose
in-order sequence is that of the argument without its first pair, the pair of
that node. -/
theorem Subtree.minimum_spec (n : BinaryTreeNode K V) (hn : n ≠ null) :
    ∃ k0 v0 r0 m, Subtree.getMinimum n = .ok (node null k0 v0 r0)
      ∧ Subtree.deleteMinimum n = .ok m
      ∧ inorder n = (k0, v0) :: inorder m
      ∧ (leftSpine n).getLast? = some (node null k0 v0 r0)
      ∧ count m + 1 = count n := by
  induction n with
  | null => exact absurd rfl hn
  | node l k v r ihl _ =>
    cases l with
    | null =>
      exact ⟨k, v, r, r, Subtree.getMinimum_leaf k v r, Subtree.deleteMinimum_leaf k v r,
        by simp [inorder], by simp [leftSpine], by simp [count]; omega⟩
    | node ll lk lv lr =>
      obtain ⟨k0, v0, r0, m, hg, hd, hi, hs, hc⟩ := ihl (by simp)
      refine ⟨k0, v0, r0, node m k v r, ?_, ?_, ?_, ?_, ?_⟩
      · rw [Subtree.getMinimum_left, hg]
      · exact Subtree.deleteMinimum_left ll lr r m lk k lv v hd
      · simp only [inorder] at hi ⊢
        rw [hi]
        simp
      · simp only [leftSpine] at hs ⊢
        rw [List.getLast?_cons_cons]
        exact hs
      · simp only [count] at hc ⊢
        omega

theorem Subtree.isBST_deleteMinimum [LinearOrder K] (n m : BinaryTreeNode K V)
    (hb : isBST n) (hd : Subtree.deleteMinimum n = .ok m) : isBST m := by
  induction n generalizing m with
  | null => cases hd
  | node l k v r ihl _ =>
    obtain ⟨hl, hr, bl, br⟩ := hb
    cases l with
    | null =>
      rw [Subtree.deleteMinimum_leaf] at hd
      injection hd with hd
      rw [← hd]
      exact br
    | node ll lk lv lr =>
      obtain ⟨k0, v0, r0, m2, _, hd2, hi, _, _⟩ :=
        Subtree.minimum_spec (node ll lk lv lr) (by simp)
      rw [Subtree.deleteMinimum_left ll lr r m2 lk k lv v hd2] at hd
      injection hd with hd
      rw [← hd]
      refine ⟨?_, hr, ihl m2 bl hd2, br⟩
      intro x hx
      apply hl x
      unfold keys at hx ⊢
      rw [hi]
      exact List.mem_map.2 (by
        obtain ⟨p, hp, e⟩ := List.mem_map.1 hx
        exact ⟨p, List.mem_cons_of_mem _ hp, e⟩)

end MinimumLemmas

section MinimumClaims

variable {K V : Type}

/-- C11: on every non-empty subtree `getMinimum` returns the leftmost node: the
last node met by descending only through left children, a node with no left
child; its pair is the first of the in-order sequence; and when the subtree
satisfies the ordering invariant its key is `<=` every key of the subtree. -/
theorem getMinimum_returns_leftmost [LinearOrder K] (n : BinaryTreeNode K V)
    (hn : n ≠ null) :
    ∃ k0 v0 r0, Subtree.getMinimum n = .ok (node null k0 v0 r0)
      ∧ (leftSpine n).getLast? = some (node null k0 v0 r0)
      ∧ (inorder n).head? = some (k0, v0)
      ∧ (isBST n → ∀ x ∈ keys n, k0 ≤ x) := by
  obtain ⟨k0, v0, r0, m, hg, _, hi, hs, _⟩ := Subtree.minimum_spec n hn
  refine ⟨k0, v0, r0, hg, hs, by rw [hi]; rfl, ?_⟩
  intro hb x hx
  have hsorted := hb.sorted_keys
  unfold keys at hsorted hx
  rw [hi, List.map_cons] at hsorted hx
  rcases List.mem_cons.1 hx with e | e
  · exact le_of_eq e.symm
  · exact (List.pairwise_cons.1 hsorted).1 x e

theorem getMinimum_returns_leftmost_witness :
    Subtree.getMinimum (node (node null 1 "y" (node null 2 "w" null)) (3 : Int) "x"
        (node null 4 "z" null))
      = .ok (node null 1 "y" (node null 2 "w" null))
      ∧ ∃ k0 v0 r0,
        Subtree.getMinimum (node (node null 1 "y" (node null 2 "w" null)) (3 : Int) "x"
            (node null 4 "z" null)) = .ok (node null k0 v0 r0)
          ∧ (leftSpine (node (node null 1 "y" (node null 2 "w" null)) (3 : Int) "x"
            (node null 4 "z" null))).getLast? = some (node null k0 v0 r0)
          ∧ (inorder (node (node null 1 "y" (node null 2 "w" null)) (3 : Int) "x"
            (node null 4 "z" null))).head? = some (k0, v0)
          ∧ (isBST (node (node null 1 "y" (node null 2 "w" null)) (3 : Int) "x"
              (node null 4 "z" null)) →
            ∀ x ∈ keys (node (node null 1 "y" (node null 2 "w" null)) (3 : Int) "x"
              (node null 4 "z" null)), k0 ≤ x) :=
  ⟨rfl, getMinimum_returns_leftmost _ (by simp)⟩

/-- C12: on every non-empty subtree `deleteMinimum` removes exactly the
leftmost node: the in-order sequence of its result is that of the argument
without its first pair, which is the pair of the node `getMinimum` returns.
When the root has no left child the result is the root's right child;
otherwise the result keeps the root's key, value and right subtree and its
left child is `deleteMinimum` of the old left child. -/
theorem deleteMinimum_removes_leftmost (n : BinaryTreeNode K V) (hn : n ≠ null) :
    ∃ m k0 v0 r0, Subtree.deleteMinimum n = .ok m
      ∧ Subtree.getMinimum n = .ok (node null k0 v0 r0)
      ∧ inorder n = (k0, v0) :: inorder m
      ∧ inorder m = (inorder n).tail
      ∧ (∀ k v r, n = node null k v r → m = r)
      ∧ (∀ l k v r, n = node l k v r → l ≠ null →
          ∃ m2, Subtree.deleteMinimum l = .ok m2 ∧ m = node m2 k v r) := by
  obtain ⟨k0, v0, r0, m, hg, hd, hi, _, _⟩ := Subtree.minimum_spec n hn
  refine ⟨m, k0, v0, r0, hd, hg, hi, by rw [hi]; rfl, ?_, ?_⟩
  · intro k v r e
    subst e
    rw [Subtree.deleteMinimum_leaf] at hd
    injection hd with hd
    exact hd.symm
  · intro l k v r e hl
    subst e
    cases l with
    | null => exact absurd rfl hl
    | node ll lk lv lr =>
      obtain ⟨_, _, _, m2, _, hd2, _, _, _⟩ :=
        Subtree.minimum_spec (node ll lk lv lr) (by simp)
      rw [Subtree.deleteMinimum_left ll lr r m2 lk k lv v hd2] at hd
      injection hd with hd
      exact ⟨m2, hd2, hd.symm⟩

theorem deleteMinimum_removes_leftmost_witness :
    Subtree.deleteMinimum (node (node null 1 "y" (node null 2 "w" null)) (3 : Int) "x"
        (node null 4 "z" null))
      = .ok (node (node null 2 "w" null) 3 "x" (node null 4 "z" null))
      ∧ ∃ m k0 v0 r0,
        Subtree.deleteMinimum (node null (3 : Int) "x" (node null 4 "z" null)) = .ok m
          ∧ Subtree.getMinimum (node null (3 : Int) "x" (node null 4 "z" null))
            = .ok (node null k0 v0 r0)
          ∧ inorder (node null (3 : Int) "x" (node null 4 "z" null)) = (k0, v0) :: inorder m
          ∧ inorder m = (inorder (node null (3 : Int) "x" (node null 4 "z" null))).tail
          ∧ (∀ k v r, node null (3 : Int) "x" (node null 4 "z" null) = node null k v r → m = r)
          ∧ (∀ l k v r, node null (3 : Int) "x" (node null 4 "z" null) = node l k v r →
              l ≠ null → ∃ m2, Subtree.deleteMinimum l = .ok m2 ∧ m = node m2 k v r) :=
  ⟨rfl, deleteMinimum_removes_leftmost _ (by simp)⟩

/-- C14: `deleteMinimum` preserves the ordering invariant: on a non-empty
subtree that satisfies it, the returned subtree satisfies it too. -/
theorem deleteMinimum_preserves_ordering [LinearOrder K] (n : BinaryTreeNode K V)
    (hn : n ≠ null) (hb : isBST n) :
    ∃ m, Subtree.deleteMinimum n = .ok m ∧ isBST m := by
  obtain ⟨_, _, _, m, _, hd, _, _, _⟩ := Subtree.minimum_spec n hn
  exact ⟨m, hd, Subtree.isBST_deleteMinimum n m hb hd⟩

theorem deleteMinimum_preserves_ordering_witness :
    isBST (node (node null 1 "y" (node null 2 "w" null)) (3 : Int) "x" (node null 4 "z" null))
      ∧ ∃ m, Subtree.deleteMinimum (node (node null 1 "y" (node null 2 "w" null)) (3 : Int)
          "x" (node null 4 "z" null)) = .ok m ∧ isBST m :=
  ⟨by decide, deleteMinimum_preserves_ordering _ (by simp) (by decide)⟩

/-- C19: `deleteMinimum` does not maintain the element count.  On a non-empty
root it returns a subtree with exactly one node fewer and touches no field of
the tree object, so linking its result as the root of a tree whose size equals
its node count leaves the size one above the node count. -/
theorem deleteMinimum_leaves_size (t : LBinaryTree K V) (hn : t.root ≠ null)
    (hs : t.size = count t.root) :
    ∃ m, Subtree.deleteMinimum t.root = .ok m
      ∧ count m + 1 = count t.root
      ∧ ({ t with root := m } : LBinaryTree K V).size = t.size
      ∧ ({ t with root := m } : LBinaryTree K V).size
          = count ({ t with root := m } : LBinaryTree K V).root + 1 := by
  obtain ⟨_, _, _, m, _, hd, _, _, hc⟩ := Subtree.minimum_spec t.root hn
  exact ⟨m, hd, hc, rfl, by simp only [hs, hc]⟩

theorem deleteMinimum_leaves_size_witness :
    Subtree.deleteMinimum ((LBinaryTree.mkEmpty : LBinaryTree Int String).insertAll
          [(5, "a"), (3, "b"), (8, "c")]).root = .ok (node null 5 "a" (node null 8 "c" null))
      ∧ ∃ m, Subtree.deleteMinimum ((LBinaryTree.mkEmpty : LBinaryTree Int String).insertAll
            [(5, "a"), (3, "b"), (8, "c")]).root = .ok m
          ∧ count m + 1 = 3
          ∧ ({ root := m, size := 3 } : LBinaryTree Int String).size = 3
          ∧ ({ root := m, size := 3 } : LBinaryTree Int String).size = count m + 1 :=
  ⟨rfl, deleteMinimum_leaves_size
    ((LBinaryTree.mkEmpty : LBinaryTree Int String).insertAll [(5, "a"), (3, "b"), (8, "c")])
    (by decide) rfl⟩

end MinimumClaims

section FindClaims

variable {K V : Type} [LinearOrder K] [ToString K]

/-- When the root has no left child and the searched key is below the root key,
the recursive search is the search of the right child. -/
theorem Subtree.find_no_left (size : Nat) (k key : K) (v : V)
    (r : BinaryTreeNode K V) (hlt : key < k) :
    Subtree.find size (node null k v r) key = Subtree.find size r key := by
  conv_lhs => rw [Subtree.find]
  rw [if_neg (ne_of_gt hlt), if_neg (by simp [hasLeft])]
  cases r with
  | null => simp [hasRight, Subtree.find]
  | node rl rk rv rr => simp [hasRight]

/-- C13, the claim as stated fails: with no ordering of the keys assumed, a
search for 3 at a root with key 5, no left child and a right child holding 3
returns that right child instead of failing. -/
theorem find_no_left_counterexample :
    (3 : Int) < 5
      ∧ (node null (5 : Int) "a" (node null 3 "b" null)).hasLeft = false
      ∧ Subtree.find 2 (node null (5 : Int) "a" (node null 3 "b" null)) 3
          = .ok (node null 3 "b" null) :=
  ⟨by decide, rfl, rfl⟩

/-- C13, amended: for a searched key strictly less than the root key and a
root with no left child, the recursive search gives, for every right subtree
and with no ordering assumed, exactly the result of searching the right child;
it fails with the key-not-found exception whenever the key is not in the right
subtree, which is so whenever the subtree satisfies the ordering invariant,
also when the root has a right child. -/
theorem find_no_left_searches_right (size : Nat) (k key : K) (v : V)
    (r : BinaryTreeNode K V) (hlt : key < k) :
    Subtree.find size (node null k v r) key = Subtree.find size r key
      ∧ (isBST (node null k v r) ∨ key ∉ keys r →
          Subtree.find size (node null k v r) key
            = .error (.BinaryTreeKeyNotFoundException
                (Subtree.notFoundMessage key size))) := by
  refine ⟨Subtree.find_no_left size k key v r hlt, ?_⟩
  intro h
  have hr : key ∉ keys r := by
    rcases h with hb | h
    · intro hc
      exact absurd (hb.2.1 key hc) (not_lt.2 (le_of_lt hlt))
    · exact h
  rw [Subtree.find_no_left size k key v r hlt]
  rcases Subtree.find_cases size r key with e | ⟨l2, v2, r2, _, hm⟩
  · exact e
  · exact absurd (List.mem_map.2 ⟨(key, v2), hm, rfl⟩) hr

theorem find_no_left_searches_right_witness :
    Subtree.find 3 (node null (5 : Int) "a" (node null 4 "d" (node null 3 "b" null))) 3
        = Subtree.find 3 (node null (4 : Int) "d" (node null 3 "b" null)) 3
      ∧ Subtree.find 3 (node null (4 : Int) "d" (node null 3 "b" null)) 3
        = .ok (node null 3 "b" null)
      ∧ Subtree.find 2 (node null (5 : Int) "a" (node null 8 "c" null)) 3
        = .error (.BinaryTreeKeyNotFoundException
            "Error: <LBinaryTree>::find() failed to find key 3 from tree, size:  2") :=
  ⟨(find_no_left_searches_right 3 (5 : Int) 3 "a"
      (node null 4 "d" (node null 3 "b" null)) (by decide)).1,
    rfl,
    (find_no_left_searches_right 2 (5 : Int) 3 "a" (node null 8 "c" null)
      (by decide)).2 (Or.inl (by decide))⟩

/-- C15: whenever the search fails, the exception is the key-not-found
exception and its message is the fixed text with the searched key and the
current size, the same on both failure paths (null subtree reached, no child to
descend into); this holds for the recursive and for the public `find`.  The
search returns no new state: the tree is as it was. -/
theorem find_failure_message (t : LBinaryTree K V) (n : BinaryTreeNode K V)
    (size : Nat) (key : K) :
    (∀ e, Subtree.find size n key = .error e →
        e = .BinaryTreeKeyNotFoundException
          ("Error: <LBinaryTree>::find() failed to find key " ++ toString key
            ++ " from tree, size:  " ++ toString size))
      ∧ (∀ e, t.find key = .error e →
        e = .BinaryTreeKeyNotFoundException
          ("Error: <LBinaryTree>::find() failed to find key " ++ toString key
            ++ " from tree, size:  " ++ toString t.size))
      ∧ (Subtree.find size (null : BinaryTreeNode K V) key
        = .error (.BinaryTreeKeyNotFoundException
          ("Error: <LBinaryTree>::find() failed to find key " ++ toString key
            ++ " from tree, size:  " ++ toString size)))
      ∧ (∀ (k : K) (v : V), k ≠ key →
        Subtree.find size (node null k v null) key
          = .error (.BinaryTreeKeyNotFoundException
            ("Error: <LBinaryTree>::find() failed to find key " ++ toString key
              ++ " from tree, size:  " ++ toString size))) := by
  have hrec : ∀ (s : Nat) (m : BinaryTreeNode K V) (e2 : BinaryTreeException),
      Subtree.find s m key = .error e2 →
      e2 = .BinaryTreeKeyNotFoundException (Subtree.notFoundMessage key s) := by
    intro s m e2 he
    rcases Subtree.find_cases s m key with e3 | ⟨l2, v2, r2, e3, _⟩
    · rw [e3] at he
      injection he with he
      exact he.symm
    · rw [e3] at he
      cases he
  refine ⟨fun e he => hrec size n e he, ?_, rfl, ?_⟩
  · intro e he
    unfold LBinaryTree.find at he
    rcases Subtree.find_cases t.size t.root key with e3 | ⟨l2, v2, r2, e3, _⟩
    · rw [e3] at he
      injection he with he
      exact he.symm
    · rw [e3] at he
      cases he
  · intro k v hk
    unfold Subtree.find
    rw [if_neg hk, if_neg (by simp [hasLeft]), if_neg (by simp [hasRight])]
    rfl

theorem find_failure_message_witness :
    Subtree.find 1 (node null (5 : Int) "a" null) 9
        = .error (.BinaryTreeKeyNotFoundException
          "Error: <LBinaryTree>::find() failed to find key 9 from tree, size:  1")
      ∧ (.BinaryTreeKeyNotFoundException
          "Error: <LBinaryTree>::find() failed to find key 9 from tree, size:  1"
        : BinaryTreeException)
        = .BinaryTreeKeyNotFoundException
          ("Error: <LBinaryTree>::find() failed to find key " ++ toString (9 : Int)
            ++ " from tree, size:  " ++ toString 1) :=
  ⟨rfl, (find_failure_message (LBinaryTree.mkEmpty : LBinaryTree Int String)
    (node null (5 : Int) "a" null) 1 9).1 _ rfl⟩

end FindClaims

/-! ## Insertion order and shape -/

section ShapeLemmas

variable {K V : Type} [LinearOrder K]

theorem Subtree.insert_rightSkewed (n : BinaryTreeNode K V) (a : K) (b : V) (s : Nat)
    (hn : isRightSkewed n = true) (hk : ∀ x ∈ keys n, x < a) :
    isRightSkewed (Subtree.insert n a b s).1 = true
      ∧ height (Subtree.insert n a b s).1 = height n + 1 := by
  induction n with
  | null => simp [Subtree.insert, isRightSkewed, height]
  | node l k x r _ ihr =>
    cases l with
    | node ll lk lx lr => simp [isRightSkewed] at hn
    | null =>
      have hka : ¬ a ≤ k := not_le.2 (hk k (by simp [keys, inorder]))
      rw [Subtree.insert_node_gt null r k a x b s hka]
      have hr : ∀ y ∈ keys r, y < a := fun y hy =>
        hk y (by rw [BinaryTreeNode.keys_node]; simp [hy])
      obtain ⟨h1, h2⟩ := ihr (by simpa [isRightSkewed] using hn) hr
      exact ⟨by simpa [isRightSkewed] using h1, by simp [height, h2]⟩

theorem Subtree.insert_leftSkewed (n : BinaryTreeNode K V) (a : K) (b : V) (s : Nat)
    (hn : isLeftSkewed n = true) (hk : ∀ x ∈ keys n, a ≤ x) :
    isLeftSkewed (Subtree.insert n a b s).1 = true
      ∧ height (Subtree.insert n a b s).1 = height n + 1 := by
  induction n with
  | null => simp [Subtree.insert, isLeftSkewed, height]
  | node l k x r ihl _ =>
    cases r with
    | node rl rk rx rr => simp [isLeftSkewed] at hn
    | null =>
      have hka : a ≤ k := hk k (by simp [keys, inorder])
      rw [Subtree.insert_node_le l null k a x b s hka]
      have hl : ∀ y ∈ keys l, a ≤ y := fun y hy =>
        hk y (by rw [BinaryTreeNode.keys_node]; simp [hy])
      obtain ⟨h1, h2⟩ := ihl (by simpa [isLeftSkewed] using hn) hl
      exact ⟨by simpa [isLeftSkewed] using h1, by simp [height, h2]⟩

theorem LBinaryTree.insertAll_rightSkewed (l : List (K × V)) (t : LBinaryTree K V)
    (ht : isRightSkewed t.root = true) (hl : (l.map Prod.fst).Pairwise (· < ·))
    (hk : ∀ x ∈ keys t.root, ∀ y ∈ l.map Prod.fst, x < y) :
    isRightSkewed (t.insertAll l).root = true
      ∧ height (t.insertAll l).root = height t.root + l.length := by
  induction l generalizing t with
  | nil => exact ⟨ht, rfl⟩
  | cons p l ih =>
    rw [List.map_cons, List.pairwise_cons] at hl
    obtain ⟨h1, h2⟩ := Subtree.insert_rightSkewed t.root p.1 p.2 t.size ht
      (fun x hx => hk x hx p.1 (by simp))
    rw [LBinaryTree.insertAll_cons]
    obtain ⟨h3, h4⟩ := ih (t.insert p.1 p.2) h1 hl.2 (by
      intro x hx y hy
      rcases (Subtree.mem_keys_insert t.root p.1 p.2 t.size x).1 hx with rfl | hx
      · exact hl.1 y hy
      · exact hk x hx y (List.mem_cons_of_mem _ hy))
    refine ⟨h3, ?_⟩
    rw [h4]
    simp only [LBinaryTree.insert, h2, List.length_cons]
    omega

theorem LBinaryTree.insertAll_leftSkewed (l : List (K × V)) (t : LBinaryTree K V)
    (ht : isLeftSkewed t.root = true) (hl : (l.map Prod.fst).Pairwise (· ≥ ·))
    (hk : ∀ x ∈ keys t.root, ∀ y ∈ l.map Prod.fst, y ≤ x) :
    isLeftSkewed (t.insertAll l).root = true
      ∧ height (t.insertAll l).root = height t.root + l.length := by
  induction l generalizing t with
  | nil => exact ⟨ht, rfl⟩
  | cons p l ih =>
    rw [List.map_cons, List.pairwise_cons] at hl
    obtain ⟨h1, h2⟩ := Subtree.insert_leftSkewed t.root p.1 p.2 t.size ht
      (fun x hx => hk x hx p.1 (by simp))
    rw [LBinaryTree.insertAll_cons]
    obtain ⟨h3, h4⟩ := ih (t.insert p.1 p.2) h1 hl.2 (by
      intro x hx y hy
      rcases (Subtree.mem_keys_insert t.root p.1 p.2 t.size x).1 hx with rfl | hx
      · exact hl.1 y hy
      · exact hk x hx y (List.mem_cons_of_mem _ hy))
    refine ⟨h3, ?_⟩
    rw [h4]
    simp only [LBinaryTree.insert, h2, List.length_cons]
    omega

end ShapeLemmas

/-! ## Insertion as insertion into the in-order list -/

section OrderLemmas

variable {K V : Type} [LinearOrder K]

theorem insertBeforeFirstGE_append_ge (k : K) (v : V) (p : K × V)
    (A B : List (K × V)) (hp : k ≤ p.1) :
    insertBeforeFirstGE k v (A ++ p :: B) = insertBeforeFirstGE k v A ++ p :: B := by
  induction A with
  | nil => simp [insertBeforeFirstGE, hp]
  | cons a A ih =>
    by_cases ha : k ≤ a.1
    · simp [insertBeforeFirstGE, ha]
    · simp [insertBeforeFirstGE, ha, ih]

theorem insertBeforeFirstGE_append_lt (k : K) (v : V) (A B : List (K × V))
    (hA : ∀ a ∈ A, a.1 < k) :
    insertBeforeFirstGE k v (A ++ B) = A ++ insertBeforeFirstGE k v B := by
  induction A with
  | nil => rfl
  | cons a A ih =>
    have ha : ¬ k ≤ a.1 := not_le.2 (hA a (by simp))
    simp only [List.cons_append, insertBeforeFirstGE, if_neg ha]
    exact congrArg (List.cons a) (ih (fun x hx => hA x (List.mem_cons_of_mem _ hx)))

theorem Subtree.inorder_insert (n : BinaryTreeNode K V) (k : K) (v : V) (s : Nat)
    (hb : isBST n) :
    inorder (Subtree.insert n k v s).1 = insertBeforeFirstGE k v (inorder n) := by
  induction n with
  | null => rfl
  | node l x y r ihl ihr =>
    obtain ⟨hl, _, bl, br⟩ := hb
    by_cases hle : k ≤ x
    · rw [Subtree.insert_node_le l r x k y v s hle]
      simp only [inorder]
      rw [ihl bl, insertBeforeFirstGE_append_ge k v (x, y) _ _ hle]
    · rw [Subtree.insert_node_gt l r x k y v s hle]
      simp only [inorder]
      rw [ihr br, insertBeforeFirstGE_append_lt k v (inorder l) _ (fun a ha =>
        lt_of_le_of_lt (hl a.1 (List.mem_map.2 ⟨a, ha, rfl⟩)) (not_le.1 hle))]
      simp [insertBeforeFirstGE, hle]

theorem filter_insertBeforeFirstGE (k key : K) (v : V) (L : List (K × V)) :
    (insertBeforeFirstGE k v L).filter (fun p => decide (p.1 = key))
      = if k = key then (k, v) :: L.filter (fun p => decide (p.1 = key))
        else L.filter (fun p => decide (p.1 = key)) := by
  induction L with
  | nil => by_cases hk : k = key <;> simp [insertBeforeFirstGE, hk]
  | cons a L ih =>
    by_cases ha : k ≤ a.1
    · by_cases hk : k = key
      · subst hk
        simp [insertBeforeFirstGE, ha, List.filter_cons]
      · simp [insertBeforeFirstGE, ha, hk, List.filter_cons]
    · simp only [insertBeforeFirstGE, if_neg ha, List.filter_cons, ih]
      by_cases hk : k = key
      · have hne : ¬ a.1 = key := by
          intro e
          exact ha (by rw [hk, ← e])
        simp [hk, hne]
      · by_cases hak : a.1 = key <;> simp [hk, hak]

theorem LBinaryTree.filter_inorder_insertAll (l : List (K × V)) (key : K) :
    (inorder ((LBinaryTree.mkEmpty : LBinaryTree K V).insertAll l).root).filter
        (fun p => decide (p.1 = key))
      = (l.filter (fun p => decide (p.1 = key))).reverse := by
  induction l using List.reverseRecOn with
  | nil => rfl
  | append_singleton l p ih =>
    rw [LBinaryTree.insertAll_append, LBinaryTree.insertAll_cons, LBinaryTree.insertAll_nil]
    have hb := LBinaryTree.isBST_insertAll l (LBinaryTree.mkEmpty : LBinaryTree K V) trivial
    have e : inorder (((LBinaryTree.mkEmpty : LBinaryTree K V).insertAll l).insert p.1 p.2).root
        = insertBeforeFirstGE p.1 p.2
            (inorder ((LBinaryTree.mkEmpty : LBinaryTree K V).insertAll l).root) :=
      Subtree.inorder_insert _ p.1 p.2 _ hb
    rw [e, filter_insertBeforeFirstGE, ih, List.filter_append, List.reverse_append]
    by_cases hk : p.1 = key
    · subst hk
      simp [List.filter_cons]
    · simp [List.filter_cons, hk]

end OrderLemmas

section OrderClaims

variable {K V : Type} [LinearOrder K]

/-- C16: final membership does not depend on the insertion order.  For two
lists of pairs that are permutations of each other, the trees built from the
empty tree have the same size, the same multiset of key/value pairs and the
same in-order key sequence; their shapes may differ, as for the two orders of
the pairs (1,a) and (2,b). -/
theorem membership_independent_of_order (l1 l2 : List (K × V)) (h : l1.Perm l2) :
    ((LBinaryTree.mkEmpty : LBinaryTree K V).insertAll l1).size
        = ((LBinaryTree.mkEmpty : LBinaryTree K V).insertAll l2).size
      ∧ ((inorder ((LBinaryTree.mkEmpty : LBinaryTree K V).insertAll l1).root
            : List (K × V)) : Multiset (K × V))
        = ((inorder ((LBinaryTree.mkEmpty : LBinaryTree K V).insertAll l2).root
            : List (K × V)) : Multiset (K × V))
      ∧ keys ((LBinaryTree.mkEmpty : LBinaryTree K V).insertAll l1).root
        = keys ((LBinaryTree.mkEmpty : LBinaryTree K V).insertAll l2).root
      ∧ ((LBinaryTree.mkEmpty : LBinaryTree Int String).insertAll [(1, "a"), (2, "b")]).root
        ≠ ((LBinaryTree.mkEmpty : LBinaryTree Int String).insertAll [(2, "b"), (1, "a")]).root := by
  have hp : (inorder ((LBinaryTree.mkEmpty : LBinaryTree K V).insertAll l1).root).Perm
      (inorder ((LBinaryTree.mkEmpty : LBinaryTree K V).insertAll l2).root) := by
    have p1 := LBinaryTree.inorder_insertAll_perm l1 (LBinaryTree.mkEmpty : LBinaryTree K V)
    have p2 := LBinaryTree.inorder_insertAll_perm l2 (LBinaryTree.mkEmpty : LBinaryTree K V)
    exact p1.trans ((List.Perm.append_right _ h).trans p2.symm)
  refine ⟨?_, Multiset.coe_eq_coe.2 hp, ?_, by decide⟩
  · rw [LBinaryTree.size_insertAll, LBinaryTree.size_insertAll, h.length_eq]
  · exact List.eq_of_perm_of_sorted (hp.map Prod.fst)
      (LBinaryTree.isBST_insertAll l1 (LBinaryTree.mkEmpty : LBinaryTree K V)
        trivial).sorted_keys
      (LBinaryTree.isBST_insertAll l2 (LBinaryTree.mkEmpty : LBinaryTree K V)
        trivial).sorted_keys

theorem membership_independent_of_order_witness :
    keys ((LBinaryTree.mkEmpty : LBinaryTree Int String).insertAll
        [(5, "a"), (3, "b"), (8, "c")]).root
      = keys ((LBinaryTree.mkEmpty : LBinaryTree Int String).insertAll
        [(8, "c"), (5, "a"), (3, "b")]).root :=
  (membership_independent_of_order [(5, "a"), (3, "b"), (8, "c")]
    [(8, "c"), (5, "a"), (3, "b")] (by decide)).2.2.1

/-- C17: the tree is never rebalanced.  Inserting pairs whose keys are strictly
increasing into the empty tree gives a chain of right links (no node has a left
child) whose height is the number of pairs, and inserting pairs whose keys are
non-increasing gives a chain of left links of that height. -/
theorem monotone_inserts_give_chain (l : List (K × V)) :
    ((l.map Prod.fst).Pairwise (· < ·) →
        isRightSkewed ((LBinaryTree.mkEmpty : LBinaryTree K V).insertAll l).root = true
          ∧ height ((LBinaryTree.mkEmpty : LBinaryTree K V).insertAll l).root = l.length)
      ∧ ((l.map Prod.fst).Pairwise (· ≥ ·) →
        isLeftSkewed ((LBinaryTree.mkEmpty : LBinaryTree K V).insertAll l).root = true
          ∧ height ((LBinaryTree.mkEmpty : LBinaryTree K V).insertAll l).root = l.length) := by
  constructor
  · intro hl
    have h := LBinaryTree.insertAll_rightSkewed l (LBinaryTree.mkEmpty : LBinaryTree K V)
      rfl hl (by simp [LBinaryTree.mkEmpty, keys, inorder])
    simpa [LBinaryTree.mkEmpty, height] using h
  · intro hl
    have h := LBinaryTree.insertAll_leftSkewed l (LBinaryTree.mkEmpty : LBinaryTree K V)
      rfl hl (by simp [LBinaryTree.mkEmpty, keys, inorder])
    simpa [LBinaryTree.mkEmpty, height] using h

theorem monotone_inserts_give_chain_witness :
    (isRightSkewed ((LBinaryTree.mkEmpty : LBinaryTree Int String).insertAll
          [(1, "a"), (2, "b"), (3, "c")]).root = true
        ∧ height ((LBinaryTree.mkEmpty : LBinaryTree Int String).insertAll
          [(1, "a"), (2, "b"), (3, "c")]).root = 3)
      ∧ (isLeftSkewed ((LBinaryTree.mkEmpty : LBinaryTree Int String).insertAll
          [(3, "a"), (3, "b"), (1, "c")]).root = true
        ∧ height ((LBinaryTree.mkEmpty : LBinaryTree Int String).insertAll
          [(3, "a"), (3, "b"), (1, "c")]).root = 3) :=
  ⟨(monotone_inserts_give_chain [((1 : Int), "a"), (2, "b"), (3, "c")]).1 (by decide),
    (monotone_inserts_give_chain [((3 : Int), "a"), (3, "b"), (1, "c")]).2 (by decide)⟩

/-- C18: tree insert refines insertion into the sorted list.  For a subtree
that satisfies the ordering invariant, the in-order sequence after the
insertion of `(k, v)` is the old sequence with `(k, v)` placed immediately
before the first entry whose key is `>= k`, at the end when there is none.
Hence in a tree built from the empty tree the entries of one key stand in the
in-order sequence in reverse insertion order, and after the inserts (4,p),
(4,q) the values are rendered as `q p`. -/
theorem insert_refines_sorted_insertion [ToString V] (n : BinaryTreeNode K V)
    (k : K) (v : V) (size : Nat) (hb : isBST n) :
    inorder (Subtree.insert n k v size).1 = insertBeforeFirstGE k v (inorder n)
      ∧ (∀ (l : List (K × V)) (key : K),
          (inorder ((LBinaryTree.mkEmpty : LBinaryTree K V).insertAll l).root).filter
              (fun p => decide (p.1 = key))
            = (l.filter (fun p => decide (p.1 = key))).reverse)
      ∧ Subtree.str ((LBinaryTree.mkEmpty : LBinaryTree Int String).insertAll
          [(4, "p"), (4, "q")]).root = "q p "
      ∧ ((LBinaryTree.mkEmpty : LBinaryTree Int String).insertAll
          [(4, "p"), (4, "q")]).str = "<BinaryTree> size: 2 values: [ q p ]" :=
  ⟨Subtree.inorder_insert n k v size hb,
    fun l key => LBinaryTree.filter_inorder_insertAll l key, by decide, by decide⟩

theorem insert_refines_sorted_insertion_witness :
    inorder (Subtree.insert (node (node null 3 "b" null) (5 : Int) "a" (node null 8 "c" null))
        5 "d" 3).1
      = [(3, "b"), (5, "d"), (5, "a"), (8, "c")] :=
  (insert_refines_sorted_insertion
    (node (node null 3 "b" null) (5 : Int) "a" (node null 8 "c" null)) 5 "d" 3
    (by decide)).1

end OrderClaims

end LBT
